import Mathlib

/-!
Verification development for the document-export engine
(src/src-tauri/src/commands/export.rs).

The Rust code is shallowly embedded over `List Char` (the code itself works on
a `Vec<char>`).  Stateful rendering (the PDF page writer) is embedded as
explicit state passing; `f32` page-geometry arithmetic is modelled exactly
over `ℚ` (the code only adds, subtracts, multiplies, divides and compares,
so the rational model is the ideal-arithmetic reading of the same formulas).
Loops are embedded with an explicit fuel parameter matched structurally so
that every definition evaluates in the kernel; each top-level wrapper passes
fuel that provably dominates the loop's iteration count (every iteration of
every source loop advances the scan position by at least one character, and
every recursive call descends into a strictly shorter slice).
-/

/-- ASCII whitespace test mirroring `char::is_whitespace` on the ASCII range
(the markup handled by the exporter is ASCII-delimited HTML). -/
def isWsChar (c : Char) : Bool :=
  c == ' ' || c == '\t' || c == '\n' || c == '\r' || c == '\x0b' || c == '\x0c'

/-- ASCII lowercasing, mirroring `char::to_lowercase`/`str::to_lowercase` on
the ASCII range. -/
def lowerChar (c : Char) : Char :=
  if 'A' ≤ c ∧ c ≤ 'Z' then Char.ofNat (c.toNat + 32) else c

def lowerStr (s : List Char) : List Char := s.map lowerChar

/-- Convenience: a Lean string literal as the character list the embedding
works on. -/
def chars (s : String) : List Char := s.toList

/-- Boolean list-prefix test (mirrors `str::starts_with`). -/
def startsWithL : List Char → List Char → Bool
  | [], _ => true
  | _ :: _, [] => false
  | p :: ps, c :: cs => p == c && startsWithL ps cs

/-- First index at which `pat` occurs in `s` (mirrors `str::find` for a
string pattern; on the ASCII inputs at hand char indices and byte indices
coincide). -/
def findSub (pat : List Char) : List Char → Option Nat
  | [] => if startsWithL pat [] then some 0 else none
  | c :: cs =>
      if startsWithL pat (c :: cs) then some 0
      else (findSub pat cs).map (· + 1)

/-- One pass of `str::replace`: leftmost non-overlapping matches of `pat`
are spliced out and replaced by `rep`; replaced text is not rescanned.
`fuel` dominates the input length. -/
def replAux (pat rep : List Char) : Nat → List Char → List Char
  | 0, s => s
  | _ + 1, [] => []
  | fuel + 1, c :: cs =>
      if pat ≠ [] ∧ startsWithL pat (c :: cs) then
        rep ++ replAux pat rep fuel ((c :: cs).drop pat.length)
      else
        c :: replAux pat rep fuel cs

def replaceAll (pat rep s : List Char) : List Char :=
  replAux pat rep (s.length + 1) s

/-- Mirrors `str::trim` (both ends). -/
def trimList (s : List Char) : List Char :=
  ((s.dropWhile isWsChar).reverse.dropWhile isWsChar).reverse

/-- Split on a separator character, keeping empty segments, mirroring Rust
`str::split(sep)` (`""` gives one empty segment, a trailing separator gives a
trailing empty segment). -/
def splitOnChar (sep : Char) : List Char → List (List Char)
  | [] => [[]]
  | c :: cs =>
      if c == sep then [] :: splitOnChar sep cs
      else
        match splitOnChar sep cs with
        | [] => [[c]]
        | l :: ls => (c :: l) :: ls

/-- Accumulator form of whitespace-splitting; `cur` is the current word,
reversed. -/
def wordsAux : List Char → List Char → List (List Char)
  | [], cur => if cur.isEmpty then [] else [cur.reverse]
  | c :: cs, cur =>
      if isWsChar c then
        if cur.isEmpty then wordsAux cs [] else cur.reverse :: wordsAux cs []
      else wordsAux cs (c :: cur)

/-- Mirrors `str::split_whitespace`: maximal whitespace-free words, in order,
never empty. -/
def wordsOf (s : List Char) : List (List Char) := wordsAux s []

/-- Mirrors `str::lines`: split on newline, drop a trailing empty segment,
strip a trailing carriage return from each line. -/
def linesOf (s : List Char) : List (List Char) :=
  let segs := splitOnChar '\n' s
  let segs := if segs.getLast? = some [] then segs.dropLast else segs
  segs.map (fun l => if l.getLast? = some '\r' then l.dropLast else l)

/-- Index of the first character at or after `pos` failing `p` (the common
`while pos < len && p(chars[pos]) { pos += 1 }` scan). -/
def scanWhile (cs : List Char) (pos : Nat) (p : Char → Bool) : Nat :=
  pos + ((cs.drop pos).takeWhile p).length

def skipWsIdx (cs : List Char) (pos : Nat) : Nat :=
  scanWhile cs pos isWsChar

/-- Position of the next `<` at or after `pos` (or the end of input). -/
def nextLt (cs : List Char) (pos : Nat) : Nat :=
  scanWhile cs pos (fun c => !(c == '<'))

/-- Advance past the next `>` (used to skip a stray closing tag); if there is
no `>` the scan stops at the end of input, exactly as in the source loop. -/
def skipPastGt (cs : List Char) (pos : Nat) : Nat :=
  let e := scanWhile cs pos (fun c => !(c == '>'))
  if e < cs.length then e + 1 else e

/-- The slice `chars[a..b]`. -/
def sliceL (cs : List Char) (a b : Nat) : List Char := (cs.take b).drop a

-- ---------------------------------------------------------------------------
-- Tag scanner (`read_opening_tag`, `TagInfo`)
-- ---------------------------------------------------------------------------

structure TagInfo where
  name : List Char
  endPos : Nat
  attrs : List (List Char × List Char)
deriving DecidableEq, Repr

/-- The attribute loop of `read_opening_tag`.  Every iteration either breaks
or consumes at least one character, so `cs.length + 1` fuel never runs out. -/
def readAttrs (cs : List Char) : Nat → Nat → List (List Char × List Char) →
    Nat × List (List Char × List Char)
  | 0, pos, acc => (pos, acc)
  | fuel + 1, pos0, acc =>
      let pos := skipWsIdx cs pos0
      if pos < cs.length then
        let ch := cs.getD pos ' '
        if ch = '>' then (pos + 1, acc)
        else if ch = '/' then
          let p2 := pos + 1
          let p3 := if p2 < cs.length ∧ cs.getD p2 ' ' = '>' then p2 + 1 else p2
          (p3, acc)
        else
          let nameEnd := scanWhile cs pos
            (fun c => !(isWsChar c) && !(c == '=') && !(c == '>') && !(c == '/'))
          let attrName := sliceL cs pos nameEnd
          let p2 := skipWsIdx cs nameEnd
          if p2 < cs.length ∧ cs.getD p2 ' ' = '=' then
            let p3 := skipWsIdx cs (p2 + 1)
            if p3 < cs.length ∧ (cs.getD p3 ' ' = '"' ∨ cs.getD p3 ' ' = '\'') then
              let q := cs.getD p3 ' '
              let valEnd := scanWhile cs (p3 + 1) (fun c => !(c == q))
              let v := sliceL cs (p3 + 1) valEnd
              let p4 := if valEnd < cs.length then valEnd + 1 else valEnd
              readAttrs cs fuel p4 (acc ++ [(lowerStr attrName, v)])
            else
              let valEnd := scanWhile cs p3
                (fun c => !(isWsChar c) && !(c == '>') && !(c == '/'))
              let v := sliceL cs p3 valEnd
              readAttrs cs fuel valEnd (acc ++ [(lowerStr attrName, v)])
          else
            readAttrs cs fuel p2
              (acc ++ if attrName ≠ [] then [(lowerStr attrName, [])] else [])
      else (pos, acc)

/-- Embedding of `read_opening_tag`: `None` on a closing tag, an empty name,
or a position not at `<`; otherwise the lowercased name, the position just
past the tag, and the ordered lowercase-keyed attribute list. -/
def read_opening_tag (cs : List Char) (start : Nat) : Option TagInfo :=
  if start < cs.length ∧ cs.getD start ' ' = '<' then
    let pos := skipWsIdx cs (start + 1)
    if pos < cs.length ∧ cs.getD pos ' ' = '/' then none
    else
      let nameEnd := scanWhile cs pos
        (fun c => !(isWsChar c) && !(c == '>') && !(c == '/'))
      let name := sliceL cs pos nameEnd
      if name = [] then none
      else
        let r := readAttrs cs (cs.length + 1) nameEnd []
        some ⟨lowerStr name, r.1, r.2⟩
  else none

-- ---------------------------------------------------------------------------
-- Closing-tag lookup (`read_until_closing`)
-- ---------------------------------------------------------------------------

def closeTagOf (tag : List Char) : List Char := '<' :: '/' :: (tag ++ ['>'])

def openPatOf (tag : List Char) : List Char := '<' :: tag

/-- The open-pattern guard of `read_until_closing`: the char right after a
nested `<tag` must be whitespace, `>` or `/` for the depth to increase. -/
def opnNextOk (cs : List Char) (p : Nat) : Prop :=
  p < cs.length ∧ (isWsChar (cs.getD p ' ') = true ∨ cs.getD p ' ' = '>' ∨ cs.getD p ' ' = '/')

instance (cs : List Char) (p : Nat) : Decidable (opnNextOk cs p) := by
  unfold opnNextOk; infer_instance

/-- Does the (lowercased, length-limited) remainder at `p` start with the
closing tag `</tag>`?  This is exactly the test the source loop performs. -/
def closeHereB (cs tag : List Char) (p : Nat) : Bool :=
  startsWithL (closeTagOf tag) (lowerStr ((cs.drop p).take ((closeTagOf tag).length + 5)))

/-- The scan loop of `read_until_closing`.  One fuel unit per iteration; the
loop advances `pos` by one each time, so `cs.length` fuel suffices from any
start position. -/
def rucLoop (cs tag : List Char) (start : Nat) :
    Nat → Nat → Int → Option (List Char × Nat)
  | 0, pos, _ =>
      if pos < cs.length then none else some (cs.drop start, cs.length)
  | fuel + 1, pos, depth =>
      if pos < cs.length then
        if cs.getD pos ' ' = '<' then
          let close := closeTagOf tag
          let remLower := lowerStr ((cs.drop pos).take (close.length + 5))
          let isClose := startsWithL close remLower
          let d1 := if isClose then depth - 1 else depth
          if isClose ∧ d1 = 0 then
            some (sliceL cs start pos, pos + close.length)
          else
            let opn := openPatOf tag
            let d2 :=
              if startsWithL opn remLower ∧ opnNextOk cs (pos + opn.length)
              then d1 + 1 else d1
            rucLoop cs tag start fuel (pos + 1) d2
        else rucLoop cs tag start fuel (pos + 1) depth
      else some (cs.drop start, cs.length)

/-- Embedding of `read_until_closing`: scan forward from `start` for the
matching `</tag>`, counting nested same-named openings; if the scan exhausts
the input, the whole remainder is returned with the end-of-input position. -/
def read_until_closing (cs : List Char) (start : Nat) (tag : List Char) :
    Option (List Char × Nat) :=
  rucLoop cs tag start cs.length start 1

-- ---------------------------------------------------------------------------
-- Entity decoding and tag stripping
-- ---------------------------------------------------------------------------

/-- Embedding of `decode_html_entities`: the sixteen literal `str::replace`
calls, applied in the source's order (so the output of the `&amp;` pass is
itself subject to the later passes). -/
def decode_html_entities (t : List Char) : List Char :=
  let t := replaceAll (chars "&amp;") (chars "&") t
  let t := replaceAll (chars "&lt;") (chars "<") t
  let t := replaceAll (chars "&gt;") (chars ">") t
  let t := replaceAll (chars "&quot;") ['"'] t
  let t := replaceAll (chars "&#39;") ['\''] t
  let t := replaceAll (chars "&apos;") ['\''] t
  let t := replaceAll (chars "&nbsp;") [' '] t
  let t := replaceAll (chars "&#x27;") ['\''] t
  let t := replaceAll (chars "&#x2F;") ['/'] t
  let t := replaceAll (chars "&mdash;") ['—'] t
  let t := replaceAll (chars "&ndash;") ['–'] t
  let t := replaceAll (chars "&hellip;") ['…'] t
  let t := replaceAll (chars "&lsquo;") ['‘'] t
  let t := replaceAll (chars "&rsquo;") ['’'] t
  let t := replaceAll (chars "&ldquo;") ['“'] t
  replaceAll (chars "&rdquo;") ['”'] t

/-- The first loop of `strip_tags_simple`: repeatedly delete the first
occurrence (in the lowercased text) of the exact closing tag.  Each deletion
shortens the text, so length-plus-one fuel never runs out. -/
def stripCloseLoop (close : List Char) : Nat → List Char → List Char
  | 0, r => r
  | fuel + 1, r =>
      match findSub close (lowerStr r) with
      | some idx => stripCloseLoop close fuel (r.take idx ++ r.drop (idx + close.length))
      | none => r

/-- The second loop of `strip_tags_simple`: repeatedly find `<tag` (a bare
prefix match, so `<p` also hits `<pre`) and delete through the next `>`. -/
def stripOpenLoop (opn : List Char) : Nat → List Char → List Char
  | 0, r => r
  | fuel + 1, r =>
      match findSub opn (lowerStr r) with
      | some idx =>
          match findSub ['>'] (r.drop idx) with
          | some e => stripOpenLoop opn fuel (r.take idx ++ r.drop (idx + e + 1))
          | none => r
      | none => r

/-- Embedding of `strip_tags_simple`: delete every exact `</tag>`, then every
`<tag…>` opening (matched only by the `<tag` prefix, attributes allowed). -/
def strip_tags_simple (html tag : List Char) : List Char :=
  let close := chars "</" ++ tag ++ chars ">"
  let opn := chars "<" ++ tag
  let r := stripCloseLoop close (html.length + 1) html
  stripOpenLoop opn (r.length + 1) r

-- ---------------------------------------------------------------------------
-- Document model
-- ---------------------------------------------------------------------------

structure InlineNode where
  text : List Char
  bold : Bool
  italic : Bool
  underline : Bool
  code : Bool
deriving DecidableEq, Repr

inductive HtmlNode where
  | Heading (level : Nat) (children : List InlineNode)
  | Paragraph (children : List InlineNode)
  | UnorderedList (items : List (List InlineNode))
  | OrderedList (items : List (List InlineNode))
  | Blockquote (children : List InlineNode)
  | CodeBlock (text : List Char)
  | HorizontalRule
  | Table (rows : List (List (List InlineNode)))
  | Image (src : List Char) (alt : List Char)
deriving DecidableEq, Repr

-- ---------------------------------------------------------------------------
-- Inline parser
-- ---------------------------------------------------------------------------

/-- The flag update each inline dispatch arm performs before recursing.  In
the source every arm except `br` recurses with the closing-tag lookup keyed
by the (equal) tag name and with these flags: strong/b set bold, em/i set
italic, u and a set underline, code sets code, span and unknown tags pass the
flags through unchanged. -/
def inlineFlagsFor (name : List Char) (b i u c : Bool) :
    Bool × Bool × Bool × Bool :=
  if name = chars "strong" ∨ name = chars "b" then (true, i, u, c)
  else if name = chars "em" ∨ name = chars "i" then (b, true, u, c)
  else if name = chars "u" ∨ name = chars "a" then (b, i, true, c)
  else if name = chars "code" then (b, i, u, true)
  else (b, i, u, c)

/-- The recursive-descent loop shared by `parse_inline` and
`parse_inline_with_flags` (the two source functions have branch-for-branch
identical bodies; `parse_inline` is the all-false-flags instance).  One fuel
unit per loop iteration and per recursion into an inner slice. -/
def piwfAux : Nat → List Char → Nat → Bool → Bool → Bool → Bool → List InlineNode
  | 0, _, _, _, _, _, _ => []
  | fuel + 1, cs, pos, b, i, u, c =>
      if pos < cs.length then
        if cs.getD pos ' ' = '<' then
          match read_opening_tag cs pos with
          | some ti =>
              if ti.name = chars "br" then
                ⟨['\n'], b, i, u, c⟩ :: piwfAux fuel cs ti.endPos b i u c
              else
                let fl := inlineFlagsFor ti.name b i u c
                match read_until_closing cs ti.endPos ti.name with
                | some (inner, e) =>
                    piwfAux fuel inner 0 fl.1 fl.2.1 fl.2.2.1 fl.2.2.2 ++
                      piwfAux fuel cs e b i u c
                | none => piwfAux fuel cs ti.endPos b i u c
          | none =>
              piwfAux fuel cs (skipPastGt cs pos) b i u c
        else
          let stop := nextLt cs pos
          let t := sliceL cs pos stop
          (if t ≠ [] then [⟨decode_html_entities t, b, i, u, c⟩] else []) ++
            piwfAux fuel cs stop b i u c
      else []

/-- Fuel that dominates the inline/block parsing loops: at most `len + 1`
iterations per nesting level and at most `len` nesting levels (each inner
slice is strictly shorter). -/
def parseFuel (s : List Char) : Nat := (s.length + 1) * (s.length + 1)

/-- Embedding of `parse_inline_with_flags`. -/
def parse_inline_with_flags (s : List Char) (b i u c : Bool) : List InlineNode :=
  piwfAux (parseFuel s) s 0 b i u c

/-- Embedding of `parse_inline` (the source body is
`parse_inline_with_flags` with its four local flags fixed to `false`). -/
def parse_inline (s : List Char) : List InlineNode :=
  piwfAux (parseFuel s) s 0 false false false false

-- sanity: one nested-style example evaluates as in the source
example :
    parse_inline (chars "<strong><em>x</em></strong>") =
      [⟨chars "x", true, true, false, false⟩] := by decide

-- ---------------------------------------------------------------------------
-- Block parsers
-- ---------------------------------------------------------------------------

/-- Embedding of the `parse_list_items` loop: each `<li>` becomes one item,
its inner `<p>` wrappers stripped before inline parsing; anything else is
walked over one character at a time. -/
def parseListItemsAux : Nat → List Char → Nat → List (List InlineNode)
  | 0, _, _ => []
  | fuel + 1, cs, pos =>
      if pos < cs.length then
        if cs.getD pos ' ' = '<' then
          match read_opening_tag cs pos with
          | some ti =>
              if ti.name = chars "li" then
                match read_until_closing cs ti.endPos (chars "li") with
                | some (inner, e) =>
                    parse_inline (strip_tags_simple inner (chars "p")) ::
                      parseListItemsAux fuel cs e
                | none => parseListItemsAux fuel cs (ti.endPos + 1)
              else parseListItemsAux fuel cs (pos + 1)
          | none => parseListItemsAux fuel cs (pos + 1)
        else parseListItemsAux fuel cs (pos + 1)
      else []

def parse_list_items (s : List Char) : List (List InlineNode) :=
  parseListItemsAux (s.length + 1) s 0

/-- Embedding of the `parse_table_row` loop: one cell per `<td>`/`<th>`,
inner `<p>` wrappers stripped before inline parsing. -/
def parseTableRowAux : Nat → List Char → Nat → List (List InlineNode)
  | 0, _, _ => []
  | fuel + 1, cs, pos =>
      if pos < cs.length then
        if cs.getD pos ' ' = '<' then
          match read_opening_tag cs pos with
          | some ti =>
              if ti.name = chars "td" ∨ ti.name = chars "th" then
                match read_until_closing cs ti.endPos ti.name with
                | some (inner, e) =>
                    parse_inline (strip_tags_simple inner (chars "p")) ::
                      parseTableRowAux fuel cs e
                | none => parseTableRowAux fuel cs (ti.endPos + 1)
              else parseTableRowAux fuel cs (pos + 1)
          | none => parseTableRowAux fuel cs (pos + 1)
        else parseTableRowAux fuel cs (pos + 1)
      else []

def parse_table_row (s : List Char) : List (List InlineNode) :=
  parseTableRowAux (s.length + 1) s 0

/-- The `<tr>` loop of `parse_table`. -/
def parseTableAux : Nat → List Char → Nat → List (List (List InlineNode))
  | 0, _, _ => []
  | fuel + 1, cs, pos =>
      if pos < cs.length then
        if cs.getD pos ' ' = '<' then
          match read_opening_tag cs pos with
          | some ti =>
              if ti.name = chars "tr" then
                match read_until_closing cs ti.endPos (chars "tr") with
                | some (inner, e) =>
                    parse_table_row inner :: parseTableAux fuel cs e
                | none => parseTableAux fuel cs (ti.endPos + 1)
              else parseTableAux fuel cs (pos + 1)
          | none => parseTableAux fuel cs (pos + 1)
        else parseTableAux fuel cs (pos + 1)
      else []

/-- Embedding of `parse_table`: strip `thead`/`tbody`/`tfoot` wrappers, then
one row per `<tr>`. -/
def parse_table (s : List Char) : HtmlNode :=
  let h1 := strip_tags_simple s (chars "thead")
  let h2 := strip_tags_simple h1 (chars "tbody")
  let h3 := strip_tags_simple h2 (chars "tfoot")
  HtmlNode.Table (parseTableAux (h3.length + 1) h3 0)

def headingNames : List (List Char) :=
  [chars "h1", chars "h2", chars "h3", chars "h4", chars "h5", chars "h6"]

def wrapperNames : List (List Char) :=
  [chars "div", chars "section", chars "article", chars "main",
   chars "header", chars "footer"]

/-- Digit-string parse with a default, mirroring
`tag_name[1..].parse::<u8>().unwrap_or(1)` on its reachable inputs (the match
arm only admits `h1`…`h6`, so the `u8` overflow error path is dead). -/
def parseU8D (s : List Char) (deflt : Nat) : Nat :=
  if s ≠ [] ∧ s.all (fun d => '0' ≤ d ∧ d ≤ '9') then
    s.foldl (fun a d => a * 10 + (d.toNat - '0'.toNat)) 0
  else deflt

def attrLookup (attrs : List (List Char × List Char)) (k : List Char) :
    List Char :=
  match attrs.find? (fun kv => kv.1 == k) with
  | some kv => kv.2
  | none => []

/-- The top-level block loop of `parse_html`, dispatching on the lowercased
tag name exactly as the source `match` does.  Wrapper tags re-enter the
parser on their (trimmed) inner markup; unknown tags skip to their closing
tag, dropping the content; plain text becomes a synthetic paragraph. -/
def parseHtmlAux : Nat → List Char → Nat → List HtmlNode
  | 0, _, _ => []
  | fuel + 1, cs, pos0 =>
      let pos := skipWsIdx cs pos0
      if pos < cs.length then
        if cs.getD pos ' ' = '<' then
          match read_opening_tag cs pos with
          | some ti =>
              let nm := ti.name
              if nm ∈ headingNames then
                match read_until_closing cs ti.endPos nm with
                | some (inner, e) =>
                    HtmlNode.Heading (parseU8D nm.tail 1) (parse_inline inner) ::
                      parseHtmlAux fuel cs e
                | none => parseHtmlAux fuel cs ti.endPos
              else if nm = chars "p" then
                match read_until_closing cs ti.endPos (chars "p") with
                | some (inner, e) =>
                    HtmlNode.Paragraph (parse_inline inner) :: parseHtmlAux fuel cs e
                | none => parseHtmlAux fuel cs ti.endPos
              else if nm = chars "ul" then
                match read_until_closing cs ti.endPos (chars "ul") with
                | some (inner, e) =>
                    HtmlNode.UnorderedList (parse_list_items inner) ::
                      parseHtmlAux fuel cs e
                | none => parseHtmlAux fuel cs ti.endPos
              else if nm = chars "ol" then
                match read_until_closing cs ti.endPos (chars "ol") with
                | some (inner, e) =>
                    HtmlNode.OrderedList (parse_list_items inner) ::
                      parseHtmlAux fuel cs e
                | none => parseHtmlAux fuel cs ti.endPos
              else if nm = chars "blockquote" then
                match read_until_closing cs ti.endPos (chars "blockquote") with
                | some (inner, e) =>
                    HtmlNode.Blockquote
                        (parse_inline (strip_tags_simple inner (chars "p"))) ::
                      parseHtmlAux fuel cs e
                | none => parseHtmlAux fuel cs ti.endPos
              else if nm = chars "pre" then
                match read_until_closing cs ti.endPos (chars "pre") with
                | some (inner, e) =>
                    HtmlNode.CodeBlock
                        (decode_html_entities (strip_tags_simple inner (chars "code"))) ::
                      parseHtmlAux fuel cs e
                | none => parseHtmlAux fuel cs ti.endPos
              else if nm = chars "hr" then
                HtmlNode.HorizontalRule :: parseHtmlAux fuel cs ti.endPos
              else if nm = chars "table" then
                match read_until_closing cs ti.endPos (chars "table") with
                | some (inner, e) =>
                    parse_table inner :: parseHtmlAux fuel cs e
                | none => parseHtmlAux fuel cs ti.endPos
              else if nm = chars "img" then
                HtmlNode.Image (attrLookup ti.attrs (chars "src"))
                    (attrLookup ti.attrs (chars "alt")) ::
                  parseHtmlAux fuel cs ti.endPos
              else if nm ∈ wrapperNames then
                match read_until_closing cs ti.endPos nm with
                | some (inner, e) =>
                    parseHtmlAux fuel (trimList inner) 0 ++ parseHtmlAux fuel cs e
                | none => parseHtmlAux fuel cs ti.endPos
              else if nm = chars "br" then
                parseHtmlAux fuel cs ti.endPos
              else
                match read_until_closing cs ti.endPos nm with
                | some (_, e) => parseHtmlAux fuel cs e
                | none => parseHtmlAux fuel cs ti.endPos
          | none => parseHtmlAux fuel cs (pos + 1)
        else
          let stop := nextLt cs pos
          let t := trimList (sliceL cs pos stop)
          (if t ≠ [] then
              [HtmlNode.Paragraph [⟨decode_html_entities t, false, false, false, false⟩]]
            else []) ++ parseHtmlAux fuel cs stop
      else []

/-- Embedding of `parse_html`: trim the markup, then run the block loop. -/
def parse_html (s : List Char) : List HtmlNode :=
  let t := trimList s
  parseHtmlAux (parseFuel t) t 0

-- sanity checks against hand-traced source behaviour
example :
    parse_html (chars "<p>hello</p>") =
      [HtmlNode.Paragraph [⟨chars "hello", false, false, false, false⟩]] := by decide
example : parse_html (chars "<foo>hello</foo>") = [] := by decide

-- ---------------------------------------------------------------------------
-- DOCX renderer model (`build_docx`)
-- ---------------------------------------------------------------------------

/-- A run in the flow-document model: the text plus the style toggles
`inline_nodes_to_runs` and the block handlers set (`mono` is the Courier New
font switch, `size` the half-point size when one is set). -/
structure DocxRun where
  text : List Char
  bold : Bool
  italic : Bool
  underline : Bool
  mono : Bool
  size : Option Nat
deriving DecidableEq, Repr

/-- A flow-document element.  Serialization to zipped bytes is below the
model's granularity; an embedded picture is represented by its base64
payload (the source decodes it and embeds a fixed 400×300 picture). -/
inductive DocxElem where
  | para (centered : Bool) (indent : Option Nat) (runs : List DocxRun)
  | table (rows : List (List (List DocxRun)))
  | image (payload : List Char)
deriving DecidableEq, Repr

/-- Embedding of `inline_nodes_to_runs`. -/
def inline_nodes_to_runs (children : List InlineNode) : List DocxRun :=
  children.map fun n => ⟨n.text, n.bold, n.italic, n.underline, n.code, none⟩

def natChars (n : Nat) : List Char := (Nat.repr n).toList

/-- Heading half-size table of the DOCX heading branch (`size * 2`). -/
def docxHeadingSize (level : Nat) : Nat :=
  match level with
  | 1 => 36
  | 2 => 30
  | 3 => 26
  | _ => 24

/-- The maximum cell count over a table's rows
(`rows.iter().map(len).max().unwrap_or(0)`). -/
def docx_col_count (rows : List (List (List InlineNode))) : Nat :=
  (rows.map List.length).foldr Nat.max 0

/-- One DOCX table row: the parsed cells followed by empty padding cells up
to the table's column count. -/
def docxRowCells (colCount : Nat) (row : List (List InlineNode)) :
    List (List DocxRun) :=
  row.map inline_nodes_to_runs ++ List.replicate (colCount - row.length) []

def isDataImage (src : List Char) : Bool :=
  startsWithL (chars "data:image/png;base64,") src ||
    startsWithL (chars "data:image/jpeg;base64,") src

/-- The per-block dispatch of `build_docx`. -/
def docxOfNode : HtmlNode → List DocxElem
  | HtmlNode.Heading level children =>
      [DocxElem.para false none (children.map fun n =>
        ⟨n.text, true, n.italic, n.underline, false, some (docxHeadingSize level * 2)⟩)]
  | HtmlNode.Paragraph children =>
      [DocxElem.para false none (inline_nodes_to_runs children)]
  | HtmlNode.UnorderedList items =>
      items.map fun item =>
        DocxElem.para false (some 720)
          (⟨chars "•  ", false, false, false, false, none⟩ :: inline_nodes_to_runs item)
  | HtmlNode.OrderedList items =>
      items.enum.map fun p =>
        DocxElem.para false (some 720)
          (⟨natChars (p.1 + 1) ++ chars ". ", false, false, false, false, none⟩ ::
            inline_nodes_to_runs p.2)
  | HtmlNode.Blockquote children =>
      [DocxElem.para false (some 720) (children.map fun n =>
        ⟨n.text, n.bold, true, false, false, none⟩)]
  | HtmlNode.CodeBlock text =>
      (linesOf text).map fun line =>
        DocxElem.para false (some 360) [⟨line, false, false, false, true, none⟩]
  | HtmlNode.HorizontalRule =>
      [DocxElem.para false none
        [⟨List.replicate 40 '_', false, false, false, false, none⟩]]
  | HtmlNode.Table rows =>
      if rows.isEmpty then []
      else
        let colCount := docx_col_count rows
        if colCount = 0 then []
        else [DocxElem.table (rows.map (docxRowCells colCount))]
  | HtmlNode.Image src alt =>
      [DocxElem.para true none
        [⟨(if alt.isEmpty then chars "[Image]" else alt), false, true, false, false, none⟩]]
      ++
      (if isDataImage src then
        match (splitOnChar ',' src).get? 1 with
        | some payload => [DocxElem.image payload]
        | none => []
      else [])

/-- Embedding of `build_docx` down to the flow-document object graph: the
centered bold 48-half-point title paragraph, a spacer paragraph, then the
parsed blocks in order.  (`docx.build().pack(...)` — the zip serialization —
is the only part below the model.) -/
def build_docx (title html : List Char) : List DocxElem :=
  let nodes := parse_html html
  DocxElem.para true none [⟨title, true, false, false, false, some 48⟩] ::
    DocxElem.para false none [] ::
    nodes.foldr (fun n acc => docxOfNode n ++ acc) []

-- ---------------------------------------------------------------------------
-- PDF renderer model (`PdfWriter`, `build_pdf`), geometry over ℚ
-- ---------------------------------------------------------------------------

def A4_WIDTH_MM : ℚ := 210
def A4_HEIGHT_MM : ℚ := 297
def MARGIN_LEFT : ℚ := 25
def MARGIN_RIGHT : ℚ := 25
def MARGIN_TOP : ℚ := 25
def MARGIN_BOTTOM : ℚ := 25
def USABLE_WIDTH : ℚ := A4_WIDTH_MM - MARGIN_LEFT - MARGIN_RIGHT
def PT_PER_MM : ℚ := 28346 / 10000

/-- Embedding of `PdfWriter::approx_text_width_mm`: character count times
the ratio-scaled glyph width (0.60 monospace, 0.52 otherwise), converted
from points to millimetres. -/
def approx_text_width_mm (text : List Char) (fontSizePt : ℚ) (isMono : Bool) : ℚ :=
  let r : ℚ := if isMono then 6 / 10 else 52 / 100
  (text.length : ℚ) * (fontSizePt * r / PT_PER_MM)

/-- The greedy word loop inside `wrap_text`: append the word to the current
line unless that would exceed the width while the line is non-empty, in which
case flush the line and start a new one with the word. -/
def greedyFill (fontSizePt maxWidthMm : ℚ) (isMono : Bool) :
    List (List Char) → List Char → List (List Char) → List (List Char)
  | [], cur, acc => if cur.isEmpty then acc else acc ++ [cur]
  | w :: ws, cur, acc =>
      let test := if cur.isEmpty then w else cur ++ ' ' :: w
      if approx_text_width_mm test fontSizePt isMono > maxWidthMm ∧ ¬ cur.isEmpty then
        greedyFill fontSizePt maxWidthMm isMono ws w (acc ++ [cur])
      else
        greedyFill fontSizePt maxWidthMm isMono ws test acc

/-- One hard line of `wrap_text`: an all-whitespace segment yields a single
empty line, otherwise the greedy fill of its words. -/
def hardLineWrap (fontSizePt maxWidthMm : ℚ) (isMono : Bool) (hl : List Char) :
    List (List Char) :=
  let words := wordsOf hl
  if words.isEmpty then [[]]
  else greedyFill fontSizePt maxWidthMm isMono words [] []

/-- Embedding of `PdfWriter::wrap_text`: split on explicit newlines, wrap
each segment greedily, and fall back to one empty line for empty output. -/
def wrap_text (text : List Char) (fontSizePt maxWidthMm : ℚ) (isMono : Bool) :
    List (List Char) :=
  let lines := (splitOnChar '\n' text).foldl
    (fun acc hl => acc ++ hardLineWrap fontSizePt maxWidthMm isMono hl) []
  if lines.isEmpty then [[]] else lines

inductive PdfFont where
  | regular | bold | italic | boldItalic | mono
deriving DecidableEq, Repr

/-- Embedding of `PdfWriter::select_font`. -/
def select_font (b i c : Bool) : PdfFont :=
  if c then PdfFont.mono
  else
    match b, i with
    | true, true => PdfFont.boldItalic
    | true, false => PdfFont.bold
    | false, true => PdfFont.italic
    | false, false => PdfFont.regular

/-- One `use_text` call: the text, the size in points, the page coordinates
in millimetres, the font. -/
structure TextWrite where
  text : List Char
  size : ℚ
  x : ℚ
  y : ℚ
  font : PdfFont
deriving DecidableEq, Repr

/-- One `add_line` call: endpoints, stroke thickness and the gray shade
(every stroke the renderer draws is an equal-component gray). -/
structure LineDraw where
  x1 : ℚ
  y1 : ℚ
  x2 : ℚ
  y2 : ℚ
  thickness : ℚ
  shade : ℚ
deriving DecidableEq, Repr

/-- The `PdfWriter` state: vertical cursor (mm from the bottom edge), page
count, and the accumulated draw calls.  Page/layer handles and font handles
are per-call constants below the model's granularity. -/
structure PdfState where
  y_pos : ℚ
  page_count : Nat
  writes : List TextWrite
  draws : List LineDraw
deriving DecidableEq, Repr

/-- Embedding of `PdfWriter::new_page`: fresh page, cursor back to the top
margin. -/
def new_page (s : PdfState) : PdfState :=
  { s with y_pos := A4_HEIGHT_MM - MARGIN_TOP, page_count := s.page_count + 1 }

/-- Embedding of `PdfWriter::ensure_space`. -/
def ensure_space (neededMm : ℚ) (s : PdfState) : PdfState :=
  if s.y_pos - neededMm < MARGIN_BOTTOM then new_page s else s

/-- Embedding of `PdfWriter::write_line`. -/
def write_line (s : PdfState) (text : List Char) (fontSizePt : ℚ)
    (font : PdfFont) (xOffsetMm : ℚ) : PdfState :=
  { s with writes := s.writes ++ [⟨text, fontSizePt, MARGIN_LEFT + xOffsetMm, s.y_pos, font⟩] }

def draw_line (d : LineDraw) (s : PdfState) : PdfState :=
  { s with draws := s.draws ++ [d] }

/-- Embedding of `PdfWriter::write_spacer`. -/
def write_spacer (mm : ℚ) (s : PdfState) : PdfState :=
  let s := { s with y_pos := s.y_pos - mm }
  if s.y_pos < MARGIN_BOTTOM then new_page s else s

def line_height_mm (fontSizePt : ℚ) : ℚ := fontSizePt / PT_PER_MM * (14 / 10)

/-- The dominant formatting `write_inline_block` picks: the flags of the
first child whose text is non-empty, regular otherwise. -/
def firstNonEmptyFmt (children : List InlineNode) : Bool × Bool × Bool :=
  match children.find? (fun c => !c.text.isEmpty) with
  | some c => (c.bold, c.italic, c.code)
  | none => (false, false, false)

/-- The per-line body of `write_inline_block`'s loop: ensure space, pick the
first non-empty child's style, write the line, advance the cursor. -/
def wibStep (children : List InlineNode) (fontSizePt indentMm : ℚ)
    (s : PdfState) (line : List Char) : PdfState :=
  let lh := line_height_mm fontSizePt
  let s1 := ensure_space lh s
  let f := firstNonEmptyFmt children
  let s2 := write_line s1 line fontSizePt (select_font f.1 f.2.1 f.2.2) indentMm
  { s2 with y_pos := s2.y_pos - lh }

/-- The concatenated plain text `write_inline_block` wraps: the optional
prefix followed by every child's text. -/
def wibFullText (children : List InlineNode) (pfx : Option (List Char)) :
    List Char :=
  pfx.getD [] ++ (children.map InlineNode.text).flatten

/-- Embedding of `PdfWriter::write_inline_block`: concatenate all runs into
one string, wrap it, then write each wrapped line with the first non-empty
run's font. -/
def write_inline_block (s : PdfState) (children : List InlineNode)
    (fontSizePt indentMm : ℚ) (pfx : Option (List Char)) : PdfState :=
  let maxW := USABLE_WIDTH - indentMm
  let isMono := children.any InlineNode.code
  let lines := wrap_text (wibFullText children pfx) fontSizePt maxW isMono
  lines.foldl (wibStep children fontSizePt indentMm) s

/-- The pipe-joined plain-text row line of the PDF table branch. -/
def pdf_row_text (row : List (List InlineNode)) : List Char :=
  List.intercalate (chars "  |  ")
    (row.map fun cell => (cell.map InlineNode.text).flatten)

/-- The per-block dispatch of `build_pdf`'s node loop. -/
def pdfNodeStep (s : PdfState) : HtmlNode → PdfState
  | HtmlNode.Heading level children =>
      let fontSize : ℚ :=
        match level with
        | 1 => 18
        | 2 => 15
        | 3 => 13
        | _ => 12
      let s := write_spacer 3 s
      let modified := children.map fun c => { c with bold := true }
      let s := write_inline_block s modified fontSize 0 none
      write_spacer 2 s
  | HtmlNode.Paragraph children =>
      write_spacer 3 (write_inline_block s children 11 0 none)
  | HtmlNode.UnorderedList items =>
      let s := items.foldl
        (fun s item =>
          write_spacer (3 / 2) (write_inline_block s item 11 8 (some (chars "•  ")))) s
      write_spacer 2 s
  | HtmlNode.OrderedList items =>
      let s := items.enum.foldl
        (fun s p =>
          write_spacer (3 / 2)
            (write_inline_block s p.2 11 8 (some (natChars (p.1 + 1) ++ chars ". ")))) s
      write_spacer 2 s
  | HtmlNode.Blockquote children =>
      let barTop := s.y_pos + 2
      let estLines : Nat := Nat.max children.length 1
      let barBottom := s.y_pos - ((estLines : ℚ) * 11 / PT_PER_MM * (14 / 10)) - 2
      let s := draw_line
        ⟨MARGIN_LEFT + 3, barTop, MARGIN_LEFT + 3, max barBottom MARGIN_BOTTOM,
          3 / 2, 6 / 10⟩ s
      let modified := children.map fun c => { c with italic := true }
      write_spacer 3 (write_inline_block s modified 11 10 none)
  | HtmlNode.CodeBlock text =>
      let s := write_spacer 2 s
      let s := (linesOf text).foldl
        (fun s line => write_inline_block s [⟨line, false, false, false, true⟩] 9 6 none) s
      write_spacer 3 s
  | HtmlNode.HorizontalRule =>
      let s := write_spacer 3 s
      let s := draw_line
        ⟨MARGIN_LEFT, s.y_pos, A4_WIDTH_MM - MARGIN_RIGHT, s.y_pos, 1 / 2, 3 / 4⟩ s
      write_spacer 3 s
  | HtmlNode.Table rows =>
      let s := write_spacer 2 s
      let s := rows.foldl
        (fun s row =>
          write_spacer 1
            (write_inline_block s [⟨pdf_row_text row, false, false, false, false⟩]
              10 0 none)) s
      write_spacer 2 s
  | HtmlNode.Image _ alt =>
      let display :=
        if alt.isEmpty then chars "[Image]"
        else chars "[Image: " ++ alt ++ chars "]"
      write_spacer 3
        (write_inline_block s [⟨display, false, true, false, false⟩] 10 0 none)

/-- Embedding of `build_pdf` down to the page-description call trace: the
wrapped bold 20-pt title, a gray rule, then the parsed blocks in order.
`PdfWriter::finish` (byte serialization) is below the model. -/
def build_pdf (title html : List Char) : PdfState :=
  let nodes := parse_html html
  let s : PdfState := ⟨A4_HEIGHT_MM - MARGIN_TOP, 1, [], []⟩
  let titleLines := wrap_text title 20 USABLE_WIDTH false
  let s := titleLines.foldl
    (fun s line =>
      let s := ensure_space (20 / PT_PER_MM * (3 / 2)) s
      let s := write_line s line 20 PdfFont.bold 0
      { s with y_pos := s.y_pos - 20 / PT_PER_MM * (3 / 2) }) s
  let s := write_spacer 6 s
  let s := draw_line
    ⟨MARGIN_LEFT, s.y_pos, A4_WIDTH_MM - MARGIN_RIGHT, s.y_pos, 1 / 2, 7 / 10⟩ s
  let s := write_spacer 6 s
  nodes.foldl pdfNodeStep s

-- ---------------------------------------------------------------------------
-- Lemmas and claim theorems
-- ---------------------------------------------------------------------------

theorem rucLoop_isSome (cs tag : List Char) (start : Nat) :
    ∀ (fuel pos : Nat) (depth : Int), cs.length ≤ fuel + pos →
      (rucLoop cs tag start fuel pos depth).isSome = true := by
  intro fuel
  induction fuel with
  | zero =>
      intro pos depth h
      simp only [rucLoop]
      have hnp : ¬ pos < cs.length := by omega
      simp [hnp]
  | succ f ih =>
      intro pos depth h
      simp only [rucLoop]
      repeat' split
      all_goals first
        | exact ih _ _ (by omega)
        | simp

theorem rucLoop_no_close (cs tag : List Char) (start : Nat) :
    ∀ (fuel pos : Nat) (depth : Int), cs.length ≤ fuel + pos →
      (∀ p, p < cs.length → pos ≤ p → closeHereB cs tag p = false) →
      rucLoop cs tag start fuel pos depth = some (cs.drop start, cs.length) := by
  intro fuel
  induction fuel with
  | zero =>
      intro pos depth h hnc
      simp only [rucLoop]
      have hnp : ¬ pos < cs.length := by omega
      simp [hnp]
  | succ f ih =>
      intro pos depth h hnc
      have hstep : ∀ p, p < cs.length → pos + 1 ≤ p → closeHereB cs tag p = false :=
        fun p hp hle => hnc p hp (by omega)
      simp only [rucLoop]
      by_cases hp : pos < cs.length
      · have hcl := hnc pos hp (le_refl _)
        unfold closeHereB at hcl
        simp only [hp, if_true, hcl]
        by_cases hlt : cs.getD pos ' ' = '<'
        · simp only [hlt, if_true, Bool.false_eq_true, false_and, if_false]
          exact ih _ _ (by omega) hstep
        · simp only [hlt, if_false]
          exact ih _ _ (by omega) hstep
      · simp [hp]

theorem c3_read_until_closing_total (cs : List Char) (start : Nat) (tag : List Char) :
    (read_until_closing cs start tag).isSome = true ∧
    ((∀ p, p < cs.length → start ≤ p → closeHereB cs tag p = false) →
      read_until_closing cs start tag = some (cs.drop start, cs.length)) := by
  constructor
  · exact rucLoop_isSome cs tag start cs.length start 1 (by omega)
  · intro hnc
    exact rucLoop_no_close cs tag start cs.length start 1 (by omega) hnc

theorem c3_read_until_closing_total_witness :
    (read_until_closing (chars "abc") 0 (chars "p")).isSome = true ∧
      read_until_closing (chars "abc") 0 (chars "p") =
        some ((chars "abc").drop 0, (chars "abc").length) :=
  ⟨(c3_read_until_closing_total (chars "abc") 0 (chars "p")).1,
   (c3_read_until_closing_total (chars "abc") 0 (chars "p")).2 (by decide)⟩

theorem inlineFlagsFor_mono (nm : List Char) (b i u c : Bool) :
    (b = true → (inlineFlagsFor nm b i u c).1 = true) ∧
    (i = true → (inlineFlagsFor nm b i u c).2.1 = true) ∧
    (u = true → (inlineFlagsFor nm b i u c).2.2.1 = true) ∧
    (c = true → (inlineFlagsFor nm b i u c).2.2.2 = true) := by
  unfold inlineFlagsFor
  split_ifs <;> simp

theorem piwfAux_flag_mono :
    ∀ (fuel : Nat) (cs : List Char) (pos : Nat) (b i u c : Bool) (n : InlineNode),
      n ∈ piwfAux fuel cs pos b i u c →
      (b = true → n.bold = true) ∧ (i = true → n.italic = true) ∧
      (u = true → n.underline = true) ∧ (c = true → n.code = true) := by
  intro fuel
  induction fuel with
  | zero => intro cs pos b i u c n hn; simp [piwfAux] at hn
  | succ f ih =>
      intro cs pos b i u c n hn
      simp only [piwfAux] at hn
      by_cases h1 : pos < cs.length
      case neg => simp [h1] at hn
      simp only [h1, if_true] at hn
      by_cases h2 : cs.getD pos ' ' = '<'
      · simp only [h2, if_true] at hn
        cases hrot : read_opening_tag cs pos with
        | none => rw [hrot] at hn; exact ih _ _ _ _ _ _ _ hn
        | some ti =>
            rw [hrot] at hn
            simp only at hn
            by_cases hbr : ti.name = chars "br"
            · simp only [hbr, if_true] at hn
              rcases List.mem_cons.mp hn with h | h
              · subst h; simp
              · exact ih _ _ _ _ _ _ _ h
            · simp only [hbr, if_false] at hn
              cases hruc : read_until_closing cs ti.endPos ti.name with
              | none => rw [hruc] at hn; exact ih _ _ _ _ _ _ _ hn
              | some pr =>
                  obtain ⟨inner, e⟩ := pr
                  rw [hruc] at hn
                  simp only at hn
                  rcases List.mem_append.mp hn with h | h
                  · have hm := ih _ _ _ _ _ _ _ h
                    have hf := inlineFlagsFor_mono ti.name b i u c
                    exact ⟨fun hb => hm.1 (hf.1 hb), fun hi => hm.2.1 (hf.2.1 hi),
                      fun hu => hm.2.2.1 (hf.2.2.1 hu), fun hc => hm.2.2.2 (hf.2.2.2 hc)⟩
                  · exact ih _ _ _ _ _ _ _ h
      · simp only [h2, if_false] at hn
        rcases List.mem_append.mp hn with h | h
        · split at h
          · rcases List.mem_singleton.mp h with rfl; simp
          · simp at h
        · exact ih _ _ _ _ _ _ _ h

/-- C5: `<strong><em>x</em></strong>` parses to exactly one inline run with
bold and italic set (underline and code clear); and in general nested inline
style tags union their flags onto the runs they enclose — every run produced
under a set flag carries that flag. -/
theorem c5_nested_inline_flags :
    parse_inline (chars "<strong><em>x</em></strong>") =
      [⟨chars "x", true, true, false, false⟩] ∧
    (∀ (s : List Char) (b i u c : Bool) (n : InlineNode),
      n ∈ parse_inline_with_flags s b i u c →
      (b = true → n.bold = true) ∧ (i = true → n.italic = true) ∧
      (u = true → n.underline = true) ∧ (c = true → n.code = true)) := by
  constructor
  · decide
  · intro s b i u c n hn
    exact piwfAux_flag_mono _ _ _ _ _ _ _ _ hn

theorem c5_nested_inline_flags_witness :
    (⟨chars "y", true, true, false, false⟩ : InlineNode) ∈
        parse_inline_with_flags (chars "y") true true false false ∧
      (⟨chars "y", true, true, false, false⟩ : InlineNode).bold = true ∧
      (⟨chars "y", true, true, false, false⟩ : InlineNode).italic = true := by
  have hm : (⟨chars "y", true, true, false, false⟩ : InlineNode) ∈
      parse_inline_with_flags (chars "y") true true false false := by decide
  have h := c5_nested_inline_flags.2 (chars "y") true true false false _ hm
  exact ⟨hm, h.1 rfl, h.2.1 rfl⟩

theorem ensure_space_pos {s : PdfState} {needed : ℚ}
    (h : s.y_pos - needed < MARGIN_BOTTOM) :
    ensure_space needed s = new_page s := by
  unfold ensure_space; exact if_pos h

theorem ensure_space_neg {s : PdfState} {needed : ℚ}
    (h : ¬ s.y_pos - needed < MARGIN_BOTTOM) :
    ensure_space needed s = s := by
  unfold ensure_space; exact if_neg h

theorem ensure_space_page_le (needed : ℚ) (s : PdfState) :
    s.page_count ≤ (ensure_space needed s).page_count := by
  unfold ensure_space new_page
  split <;> simp

theorem ensure_space_writes (needed : ℚ) (s : PdfState) :
    (ensure_space needed s).writes = s.writes := by
  unfold ensure_space new_page
  split <;> rfl

theorem wibStep_page_eq (ch : List InlineNode) (fs ind : ℚ) (s : PdfState)
    (l : List Char) :
    (wibStep ch fs ind s l).page_count =
      (ensure_space (line_height_mm fs) s).page_count := rfl

theorem wibStep_y_eq (ch : List InlineNode) (fs ind : ℚ) (s : PdfState)
    (l : List Char) :
    (wibStep ch fs ind s l).y_pos =
      (ensure_space (line_height_mm fs) s).y_pos - line_height_mm fs := rfl

theorem wibStep_writes_eq (ch : List InlineNode) (fs ind : ℚ) (s : PdfState)
    (l : List Char) :
    (wibStep ch fs ind s l).writes =
      s.writes ++ [⟨l, fs, MARGIN_LEFT + ind, (ensure_space (line_height_mm fs) s).y_pos,
        select_font (firstNonEmptyFmt ch).1 (firstNonEmptyFmt ch).2.1
          (firstNonEmptyFmt ch).2.2⟩] := by
  show (ensure_space (line_height_mm fs) s).writes ++ _ = _
  rw [ensure_space_writes]

theorem wibFold_page_le (ch : List InlineNode) (fs ind : ℚ) :
    ∀ (lines : List (List Char)) (s : PdfState),
      s.page_count ≤ (lines.foldl (wibStep ch fs ind) s).page_count := by
  intro lines
  induction lines with
  | nil => intro s; simp
  | cons l rest ih =>
      intro s
      simp only [List.foldl_cons]
      have h1 : s.page_count ≤ (wibStep ch fs ind s l).page_count := by
        rw [wibStep_page_eq]
        exact ensure_space_page_le (line_height_mm fs) s
      exact le_trans h1 (ih _)

theorem wibFold_overflow (ch : List InlineNode) (fs ind : ℚ) :
    ∀ (lines : List (List Char)) (s : PdfState),
      s.y_pos - lines.length * line_height_mm fs < MARGIN_BOTTOM →
      lines ≠ [] →
      s.page_count + 1 ≤ (lines.foldl (wibStep ch fs ind) s).page_count := by
  intro lines
  induction lines with
  | nil => intro s _ hne; exact absurd rfl hne
  | cons l rest ih =>
      intro s hov _
      simp only [List.foldl_cons]
      by_cases htr : s.y_pos - line_height_mm fs < MARGIN_BOTTOM
      · have h1 : (wibStep ch fs ind s l).page_count = s.page_count + 1 := by
          rw [wibStep_page_eq, ensure_space_pos htr]; rfl
        have h2 := wibFold_page_le ch fs ind rest (wibStep ch fs ind s l)
        omega
      · have hpc : (wibStep ch fs ind s l).page_count = s.page_count := by
          rw [wibStep_page_eq, ensure_space_neg htr]
        have hy : (wibStep ch fs ind s l).y_pos = s.y_pos - line_height_mm fs := by
          rw [wibStep_y_eq, ensure_space_neg htr]
        have hlen : ((l :: rest).length : ℚ) = (rest.length : ℚ) + 1 := by
          push_cast [List.length_cons]; ring
        have hne : rest ≠ [] := by
          rintro rfl
          apply htr
          have : ((l :: ([] : List (List Char))).length : ℚ) = 1 := by simp
          rw [this, one_mul] at hov
          exact hov
        have hov2 : (wibStep ch fs ind s l).y_pos -
            rest.length * line_height_mm fs < MARGIN_BOTTOM := by
          rw [hy]
          rw [hlen] at hov
          nlinarith [hov]
        have := ih (wibStep ch fs ind s l) hov2 hne
        omega

theorem wrap_text_ne_nil (t : List Char) (fs mw : ℚ) (m : Bool) :
    wrap_text t fs mw m ≠ [] := by
  unfold wrap_text
  dsimp only
  split
  · simp
  · next h => simpa [List.isEmpty_iff] using h

/-- C4: in the page renderer, before any wrapped line is written,
`ensure_space` allocates a fresh page — incrementing the page count by one
and resetting the cursor to the top margin, A4 height minus the 25 mm
margin — exactly when the cursor minus the line height falls below the
bottom margin, and does nothing otherwise; consequently a block whose
wrapped lines need more vertical space than remains on the page strictly
increases the page count. -/
theorem c4_pagination :
    (∀ (s : PdfState) (needed : ℚ), s.y_pos - needed < MARGIN_BOTTOM →
      ensure_space needed s =
        { s with y_pos := A4_HEIGHT_MM - MARGIN_TOP,
                 page_count := s.page_count + 1 }) ∧
    (∀ (s : PdfState) (needed : ℚ), ¬ s.y_pos - needed < MARGIN_BOTTOM →
      ensure_space needed s = s) ∧
    (∀ (s : PdfState) (children : List InlineNode) (fontSizePt indentMm : ℚ)
        (pfx : Option (List Char)),
      s.y_pos -
          (wrap_text (wibFullText children pfx) fontSizePt
            (USABLE_WIDTH - indentMm) (children.any InlineNode.code)).length *
            line_height_mm fontSizePt < MARGIN_BOTTOM →
      s.page_count + 1 ≤
        (write_inline_block s children fontSizePt indentMm pfx).page_count) := by
  refine ⟨fun s needed h => ensure_space_pos h, fun s needed h => ensure_space_neg h, ?_⟩
  intro s children fontSizePt indentMm pfx hov
  exact wibFold_overflow children fontSizePt indentMm _ s hov
    (wrap_text_ne_nil _ _ _ _)

theorem wordsAux_append_ws (b : List Char) (sep : Char) (hsep : isWsChar sep = true) :
    ∀ (a cur : List Char),
      wordsAux (a ++ sep :: b) cur = wordsAux a cur ++ wordsOf b := by
  intro a
  induction a with
  | nil =>
      intro cur
      simp only [List.nil_append, wordsAux, hsep, if_true, wordsOf]
      by_cases hc : cur.isEmpty
      · simp [hc, wordsAux]
      · simp [hc, wordsAux]
  | cons c cs ih =>
      intro cur
      simp only [List.cons_append, wordsAux]
      by_cases hw : isWsChar c
      · simp only [hw, if_true]
        by_cases hc : cur.isEmpty
        · simp [hc, ih]
        · simp [hc, ih]
      · simp [hw, ih]

theorem wordsOf_append_ws (a b : List Char) (sep : Char)
    (hsep : isWsChar sep = true) :
    wordsOf (a ++ sep :: b) = wordsOf a ++ wordsOf b :=
  wordsAux_append_ws b sep hsep a []

theorem wordsAux_wsFree :
    ∀ (s cur : List Char), (∀ ch ∈ s, isWsChar ch = false) →
      wordsAux s cur = if cur = [] ∧ s = [] then [] else [cur.reverse ++ s] := by
  intro s
  induction s with
  | nil =>
      intro cur _
      simp only [wordsAux, List.append_nil]
      by_cases hc : cur = [] <;> simp [hc]
  | cons c cs ih =>
      intro cur hfree
      have hc : isWsChar c = false := hfree c (List.mem_cons_self c cs)
      simp only [wordsAux, hc, Bool.false_eq_true, if_false]
      rw [ih (c :: cur) (fun ch hch => hfree ch (List.mem_cons_of_mem c hch))]
      simp

theorem wordsOf_single (w : List Char) (hne : w ≠ [])
    (hfree : ∀ ch ∈ w, isWsChar ch = false) : wordsOf w = [w] := by
  unfold wordsOf
  rw [wordsAux_wsFree w [] hfree]
  simp [hne]

theorem wordsAux_sane :
    ∀ (s cur : List Char), (∀ ch ∈ cur, isWsChar ch = false) →
      ∀ w ∈ wordsAux s cur, w ≠ [] ∧ ∀ ch ∈ w, isWsChar ch = false := by
  intro s
  induction s with
  | nil =>
      intro cur hcur w hw
      simp only [wordsAux] at hw
      by_cases hc : cur.isEmpty
      · simp [hc] at hw
      · simp only [hc, Bool.false_eq_true, if_false, List.mem_singleton] at hw
        subst hw
        refine ⟨by simpa [List.isEmpty_iff] using hc, ?_⟩
        intro ch hch
        exact hcur ch (List.mem_reverse.mp hch)
  | cons c cs ih =>
      intro cur hcur w hw
      simp only [wordsAux] at hw
      by_cases hws : isWsChar c
      · simp only [hws, if_true] at hw
        by_cases hc : cur.isEmpty
        · simp only [hc, if_true] at hw
          exact ih [] (by simp) w hw
        · simp only [hc, Bool.false_eq_true, if_false, List.mem_cons] at hw
          rcases hw with rfl | hw
          · refine ⟨by simpa [List.isEmpty_iff] using hc, ?_⟩
            intro ch hch
            exact hcur ch (List.mem_reverse.mp hch)
          · exact ih [] (by simp) w hw
      · simp only [hws, Bool.false_eq_true, if_false] at hw
        refine ih (c :: cur) ?_ w hw
        intro ch hch
        rcases List.mem_cons.mp hch with rfl | hch
        · simpa using hws
        · exact hcur ch hch

theorem wordsOf_sane (s : List Char) :
    ∀ w ∈ wordsOf s, w ≠ [] ∧ ∀ ch ∈ w, isWsChar ch = false :=
  wordsAux_sane s [] (by simp)

theorem splitOnChar_ne_nil (sep : Char) (s : List Char) :
    splitOnChar sep s ≠ [] := by
  cases s with
  | nil => simp [splitOnChar]
  | cons c cs =>
      simp only [splitOnChar]
      split
      · simp
      · split <;> simp

theorem splitOnChar_append (sep : Char) (a b : List Char) :
    splitOnChar sep (a ++ sep :: b) = splitOnChar sep a ++ splitOnChar sep b := by
  induction a with
  | nil => simp [splitOnChar]
  | cons c cs ih =>
      simp only [List.cons_append, splitOnChar]
      by_cases hc : c == sep
      · simp [hc, ih]
      · obtain ⟨l, ls, hls⟩ : ∃ l ls, splitOnChar sep cs = l :: ls := by
          cases h : splitOnChar sep cs with
          | nil => exact absurd h (splitOnChar_ne_nil sep cs)
          | cons l ls => exact ⟨l, ls, rfl⟩
        simp only [hc, Bool.false_eq_true, if_false, List.append_eq]
        rw [ih, hls]
        simp

theorem splitOnChar_no_sep (sep : Char) :
    ∀ (s : List Char), (∀ ch ∈ s, ¬ ch = sep) → splitOnChar sep s = [s] := by
  intro s
  induction s with
  | nil => simp [splitOnChar]
  | cons c cs ih =>
      intro hfree
      have hc : ¬ c == sep := by
        simpa using hfree c (List.mem_cons_self c cs)
      simp only [splitOnChar, hc, Bool.false_eq_true, if_false]
      rw [ih (fun ch hch => hfree ch (List.mem_cons_of_mem c hch))]

theorem foldl_append_flatten (f : List Char → List (List Char)) :
    ∀ (ls : List (List Char)) (acc : List (List Char)),
      ls.foldl (fun a x => a ++ f x) acc = acc ++ (ls.map f).flatten := by
  intro ls
  induction ls with
  | nil => intro acc; simp
  | cons l rest ih => intro acc; simp [ih, List.append_assoc]

theorem greedyFill_ne_nil (fs mw : ℚ) (m : Bool) :
    ∀ (ws : List (List Char)) (cur : List Char) (acc : List (List Char)),
      (∀ w ∈ ws, w ≠ []) → (acc ≠ [] ∨ cur ≠ [] ∨ ws ≠ []) →
      greedyFill fs mw m ws cur acc ≠ [] := by
  intro ws
  induction ws with
  | nil =>
      intro cur acc _ hne
      simp only [greedyFill]
      by_cases hc : cur.isEmpty
      · have hcur : cur = [] := by simpa [List.isEmpty_iff] using hc
        rcases hne with h | h | h
        · simpa [hc] using h
        · exact absurd hcur h
        · exact absurd rfl h
      · simp [hc]
  | cons w ws ih =>
      intro cur acc hws _
      have hw : w ≠ [] := hws w (List.mem_cons_self w ws)
      have hws2 : ∀ x ∈ ws, x ≠ [] := fun x hx => hws x (List.mem_cons_of_mem w hx)
      simp only [greedyFill]
      repeat' split
      all_goals first
        | exact ih w (acc ++ [cur]) hws2 (Or.inl (by simp))
        | exact ih w acc hws2 (Or.inr (Or.inl hw))
        | exact ih _ acc hws2 (Or.inr (Or.inl (by simp)))

theorem flatten_ne_nil_of (f : List Char → List (List Char))
    (hf : ∀ x, f x ≠ []) :
    ∀ (ls : List (List Char)), ls ≠ [] → (ls.map f).flatten ≠ [] := by
  intro ls
  cases ls with
  | nil => intro h; exact absurd rfl h
  | cons l rest =>
      intro _
      simp only [List.map_cons, List.flatten_cons]
      intro hcontra
      have := List.append_eq_nil.mp hcontra
      exact hf l this.1

theorem hardLineWrap_ne_nil (fs mw : ℚ) (m : Bool) (hl : List Char) :
    hardLineWrap fs mw m hl ≠ [] := by
  unfold hardLineWrap
  dsimp only
  split
  · simp
  · next h =>
      refine greedyFill_ne_nil fs mw m (wordsOf hl) [] [] ?_ ?_
      · intro w hw; exact (wordsOf_sane hl w hw).1
      · refine Or.inr (Or.inr ?_)
        simpa [List.isEmpty_iff] using h

theorem wrap_text_eq_flatten (t : List Char) (fs mw : ℚ) (m : Bool) :
    wrap_text t fs mw m =
      ((splitOnChar '\n' t).map (hardLineWrap fs mw m)).flatten := by
  unfold wrap_text
  dsimp only
  rw [foldl_append_flatten]
  simp only [List.nil_append]
  have hne : ((splitOnChar '\n' t).map (hardLineWrap fs mw m)).flatten ≠ [] :=
    flatten_ne_nil_of _ (hardLineWrap_ne_nil fs mw m) _ (splitOnChar_ne_nil '\n' t)
  simp [List.isEmpty_iff, hne]

theorem wordsOf_nil : wordsOf [] = [] := by simp [wordsOf, wordsAux]

theorem greedyFill_words (fs mw : ℚ) (m : Bool) :
    ∀ (ws : List (List Char)) (cur : List Char) (acc : List (List Char)),
      (∀ w ∈ ws, w ≠ [] ∧ ∀ ch ∈ w, isWsChar ch = false) →
      ((greedyFill fs mw m ws cur acc).map wordsOf).flatten =
        (acc.map wordsOf).flatten ++ wordsOf cur ++ ws := by
  intro ws
  induction ws with
  | nil =>
      intro cur acc _
      simp only [greedyFill]
      by_cases hc : cur.isEmpty
      · have hcur : cur = [] := by simpa [List.isEmpty_iff] using hc
        subst hcur
        simp [wordsOf_nil]
      · simp [hc, wordsOf_nil]
  | cons w ws ih =>
      intro cur acc hsane
      have hw := hsane w (List.mem_cons_self w ws)
      have hws2 : ∀ x ∈ ws, x ≠ [] ∧ ∀ ch ∈ x, isWsChar ch = false :=
        fun x hx => hsane x (List.mem_cons_of_mem w hx)
      have hwone : wordsOf w = [w] := wordsOf_single w hw.1 hw.2
      by_cases hc : cur.isEmpty
      · have hcur : cur = [] := by simpa [List.isEmpty_iff] using hc
        subst hcur
        simp only [greedyFill, List.isEmpty_nil, if_true]
        rw [if_neg (by simp)]
        rw [ih w acc hws2]
        simp [hwone, wordsOf_nil]
      · have heq : cur.isEmpty = false := by simpa using hc
        simp only [greedyFill, heq, Bool.false_eq_true, if_false]
        split
        · rw [ih w (acc ++ [cur]) hws2]
          simp [hwone, List.append_assoc]
        · rw [ih (cur ++ ' ' :: w) acc hws2]
          rw [wordsOf_append_ws cur w ' ' (by decide)]
          simp [hwone, List.append_assoc]

theorem hardLineWrap_words (fs mw : ℚ) (m : Bool) (hl : List Char) :
    ((hardLineWrap fs mw m hl).map wordsOf).flatten = wordsOf hl := by
  unfold hardLineWrap
  dsimp only
  split
  · next h =>
      have hnil : wordsOf hl = [] := by simpa [List.isEmpty_iff] using h
      simp [hnil, wordsOf_nil]
  · rw [greedyFill_words fs mw m (wordsOf hl) [] [] (wordsOf_sane hl)]
    simp [wordsOf_nil]

theorem splitOnChar_exists_cons (sep : Char) (t : List Char) :
    ∃ l ls, splitOnChar sep t = l :: ls := by
  cases h : splitOnChar sep t with
  | nil => exact absurd h (splitOnChar_ne_nil sep t)
  | cons l ls => exact ⟨l, ls, rfl⟩

theorem split_words_flatten :
    ∀ (t pre : List Char) (l : List Char) (ls : List (List Char)),
      splitOnChar '\n' t = l :: ls →
      (((pre ++ l) :: ls).map wordsOf).flatten = wordsOf (pre ++ t) := by
  intro t
  induction t with
  | nil =>
      intro pre l ls h
      simp only [splitOnChar] at h
      injection h with h1 h2
      subst h1; subst h2
      simp
  | cons c cs ih =>
      intro pre l ls h
      by_cases hc : c == '\n'
      · have hceq : c = '\n' := by simpa using hc
        subst hceq
        simp only [splitOnChar, beq_self_eq_true, if_true] at h
        injection h with h1 h2
        subst h1; subst h2
        obtain ⟨l2, ls2, h2⟩ := splitOnChar_exists_cons '\n' cs
        have hIH := ih [] l2 ls2 h2
        simp only [List.nil_append] at hIH
        rw [wordsOf_append_ws pre cs '\n' (by decide)]
        rw [h2]
        simp only [List.append_nil, List.map_cons, List.flatten_cons]
        rw [← hIH]
        simp
      · simp only [splitOnChar, hc, Bool.false_eq_true, if_false] at h
        obtain ⟨l2, ls2, h2⟩ := splitOnChar_exists_cons '\n' cs
        rw [h2] at h
        injection h with h1 hls
        subst h1; subst hls
        have hIH := ih (pre ++ [c]) l2 ls2 h2
        rw [List.append_assoc] at hIH
        simpa using hIH

theorem flatten_hardLine_words (fs mw : ℚ) (m : Bool) :
    ∀ (ls : List (List Char)),
      (((ls.map (hardLineWrap fs mw m)).flatten).map wordsOf).flatten =
        (ls.map wordsOf).flatten := by
  intro ls
  induction ls with
  | nil => simp
  | cons l rest ih =>
      simp only [List.map_cons, List.flatten_cons, List.map_append,
        List.flatten_append, ih, hardLineWrap_words]

theorem wrap_text_words (t : List Char) (fs mw : ℚ) (m : Bool) :
    ((wrap_text t fs mw m).map wordsOf).flatten = wordsOf t := by
  rw [wrap_text_eq_flatten, flatten_hardLine_words]
  obtain ⟨l, ls, h⟩ := splitOnChar_exists_cons '\n' t
  have hsw := split_words_flatten t [] l ls h
  simp only [List.nil_append] at hsw
  rw [h]
  exact hsw

theorem greedyFill_width (fs mw : ℚ) (m : Bool) :
    ∀ (ws : List (List Char)) (cur : List Char) (acc : List (List Char)),
      (∀ w ∈ ws, ∀ ch ∈ w, isWsChar ch = false) →
      (cur = [] ∨ (∀ ch ∈ cur, isWsChar ch = false) ∨
        approx_text_width_mm cur fs m ≤ mw) →
      (∀ l ∈ acc, (∀ ch ∈ l, isWsChar ch = false) ∨
        approx_text_width_mm l fs m ≤ mw) →
      ∀ l ∈ greedyFill fs mw m ws cur acc,
        (∀ ch ∈ l, isWsChar ch = false) ∨ approx_text_width_mm l fs m ≤ mw := by
  intro ws
  induction ws with
  | nil =>
      intro cur acc _ hcur hacc l hl
      have hcurP : (∀ ch ∈ cur, isWsChar ch = false) ∨
          approx_text_width_mm cur fs m ≤ mw := by
        rcases hcur with rfl | h | h
        · exact Or.inl (by simp)
        · exact Or.inl h
        · exact Or.inr h
      simp only [greedyFill] at hl
      split at hl
      · exact hacc l hl
      · rcases List.mem_append.mp hl with h | h
        · exact hacc l h
        · rcases List.mem_singleton.mp h with rfl
          exact hcurP
  | cons w ws ih =>
      intro cur acc hws hcur hacc l hl
      have hwfree : ∀ ch ∈ w, isWsChar ch = false := hws w (List.mem_cons_self w ws)
      have hws2 : ∀ x ∈ ws, ∀ ch ∈ x, isWsChar ch = false :=
        fun x hx => hws x (List.mem_cons_of_mem w hx)
      have hcurP : (∀ ch ∈ cur, isWsChar ch = false) ∨
          approx_text_width_mm cur fs m ≤ mw := by
        rcases hcur with rfl | h | h
        · exact Or.inl (by simp)
        · exact Or.inl h
        · exact Or.inr h
      by_cases hc : cur.isEmpty
      · have hcure : cur = [] := by simpa [List.isEmpty_iff] using hc
        subst hcure
        simp only [greedyFill, List.isEmpty_nil, if_true] at hl
        rw [if_neg (by simp)] at hl
        exact ih w acc hws2 (Or.inr (Or.inl hwfree)) hacc l hl
      · have heq : cur.isEmpty = false := by simpa using hc
        simp only [greedyFill, heq, Bool.false_eq_true, if_false] at hl
        split at hl
        · refine ih w (acc ++ [cur]) hws2 (Or.inr (Or.inl hwfree)) ?_ l hl
          intro x hx
          rcases List.mem_append.mp hx with h | h
          · exact hacc x h
          · rcases List.mem_singleton.mp h with rfl
            exact hcurP
        · next hcond =>
            have hle : approx_text_width_mm (cur ++ ' ' :: w) fs m ≤ mw := by
              rcases not_and_or.mp hcond with h | h
              · exact le_of_not_lt h
              · exact absurd (by simpa using hc) h

            exact ih (cur ++ ' ' :: w) acc hws2 (Or.inr (Or.inr hle)) hacc l hl

theorem wrap_text_width (t : List Char) (fs mw : ℚ) (m : Bool) :
    ∀ l ∈ wrap_text t fs mw m,
      (∀ ch ∈ l, isWsChar ch = false) ∨ approx_text_width_mm l fs m ≤ mw := by
  rw [wrap_text_eq_flatten]
  intro l hl
  rw [List.mem_flatten] at hl
  obtain ⟨sub, hsub, hlsub⟩ := hl
  rw [List.mem_map] at hsub
  obtain ⟨hlq, _, rfl⟩ := hsub
  unfold hardLineWrap at hlsub
  dsimp only at hlsub
  split at hlsub
  · rcases List.mem_singleton.mp hlsub with rfl
    exact Or.inl (by simp)
  · exact greedyFill_width fs mw m (wordsOf hlq) [] []
      (fun w hw => (wordsOf_sane hlq w hw).2) (Or.inl rfl) (by simp) l hlsub

theorem wrap_text_single_word (w : List Char) (fs mw : ℚ) (m : Bool)
    (hne : w ≠ []) (hfree : ∀ ch ∈ w, isWsChar ch = false) :
    wrap_text w fs mw m = [w] := by
  have hnl : ∀ ch ∈ w, ¬ ch = '\n' := by
    intro ch hch heq
    subst heq
    exact absurd (hfree '\n' hch) (by decide)
  rw [wrap_text_eq_flatten, splitOnChar_no_sep '\n' w hnl]
  simp only [List.map_cons, List.map_nil, List.flatten_cons, List.flatten_nil,
    List.append_nil]
  unfold hardLineWrap
  dsimp only
  rw [wordsOf_single w hne hfree]
  rw [if_neg (by simp)]
  have step1 : greedyFill fs mw m [w] [] [] = greedyFill fs mw m [] w [] := by
    simp only [greedyFill]
    rw [if_neg (by simp)]
    simp
  have step2 : greedyFill fs mw m [] w [] = [w] := by
    simp only [greedyFill]
    rw [if_neg (by simpa [List.isEmpty_iff] using hne)]
    simp
  rw [step1, step2]

theorem wrap_text_newline (fs mw : ℚ) (m : Bool) (a b : List Char) :
    wrap_text (a ++ '\n' :: b) fs mw m =
      wrap_text a fs mw m ++ wrap_text b fs mw m := by
  rw [wrap_text_eq_flatten, wrap_text_eq_flatten, wrap_text_eq_flatten,
    splitOnChar_append]
  simp [List.map_append]

/-- C7: line wrapping splits on explicit newlines first (the wrap of a text
with a newline is the wrap of the two halves in sequence), then fills lines
greedily from whitespace-delimited words without ever splitting, dropping or
reordering a word (flattening the words of the wrapped lines recovers the
words of the input); every produced line either fits the maximum width or
contains no whitespace at all — i.e. it is a single unsplit word, which, when
wider than the line, simply occupies one overflowing line of its own. -/
theorem c7_wrap_greedy :
    (∀ (fs mw : ℚ) (m : Bool) (a b : List Char),
      wrap_text (a ++ '\n' :: b) fs mw m =
        wrap_text a fs mw m ++ wrap_text b fs mw m) ∧
    (∀ (t : List Char) (fs mw : ℚ) (m : Bool),
      ((wrap_text t fs mw m).map wordsOf).flatten = wordsOf t) ∧
    (∀ (t : List Char) (fs mw : ℚ) (m : Bool),
      ∀ l ∈ wrap_text t fs mw m,
        (∀ ch ∈ l, isWsChar ch = false) ∨ approx_text_width_mm l fs m ≤ mw) ∧
    (∀ (w : List Char) (fs mw : ℚ) (m : Bool), w ≠ [] →
      (∀ ch ∈ w, isWsChar ch = false) → wrap_text w fs mw m = [w]) := by
  exact ⟨wrap_text_newline, wrap_text_words, wrap_text_width, wrap_text_single_word⟩

theorem c7_wrap_greedy_witness :
    wrap_text (chars "ab" ++ '\n' :: chars "cd") 11 160 false =
        wrap_text (chars "ab") 11 160 false ++ wrap_text (chars "cd") 11 160 false ∧
      ((wrap_text (chars "hello world") 11 160 false).map wordsOf).flatten =
        wordsOf (chars "hello world") ∧
      ((∀ ch ∈ chars "ab", isWsChar ch = false) ∨
        approx_text_width_mm (chars "ab") 11 160 ≤ (160 : ℚ)) ∧
      wrap_text (chars "supercalifragilistic") 11 160 false =
        [chars "supercalifragilistic"] := by
  refine ⟨c7_wrap_greedy.1 11 160 false (chars "ab") (chars "cd"),
    c7_wrap_greedy.2.1 (chars "hello world") 11 160 false, ?_, ?_⟩
  · exact Or.inl (by decide)
  · exact c7_wrap_greedy.2.2.2 (chars "supercalifragilistic") 11 160 false
      (by decide) (by decide)

theorem wibFold_writes (ch : List InlineNode) (fs ind : ℚ) :
    ∀ (lines : List (List Char)) (s : PdfState),
      ((lines.foldl (wibStep ch fs ind) s).writes).map
          (fun w => (w.text, w.size, w.x, w.font)) =
        (s.writes).map (fun w => (w.text, w.size, w.x, w.font)) ++
          lines.map (fun l => (l, fs, MARGIN_LEFT + ind,
            select_font (firstNonEmptyFmt ch).1 (firstNonEmptyFmt ch).2.1
              (firstNonEmptyFmt ch).2.2)) := by
  intro lines
  induction lines with
  | nil => intro s; simp
  | cons l rest ih =>
      intro s
      simp only [List.foldl_cons, List.map_cons]
      rw [ih, wibStep_writes_eq]
      simp [List.map_append]

/-- C6: for every block the page renderer writes, the runs are first
concatenated (after the optional bullet/number prefix) into one plain string
and wrapped as a whole; every wrapped line is then written at the block's
indent with one and the same font — the one selected from the flags of the
first run whose text is non-empty (regular when no such run exists). -/
theorem c6_first_run_style (s : PdfState) (children : List InlineNode)
    (fontSizePt indentMm : ℚ) (pfx : Option (List Char)) :
    ((write_inline_block s children fontSizePt indentMm pfx).writes).map
        (fun w => (w.text, w.size, w.x, w.font)) =
      (s.writes).map (fun w => (w.text, w.size, w.x, w.font)) ++
        (wrap_text (wibFullText children pfx) fontSizePt
          (USABLE_WIDTH - indentMm) (children.any InlineNode.code)).map
          (fun l => (l, fontSizePt, MARGIN_LEFT + indentMm,
            select_font (firstNonEmptyFmt children).1
              (firstNonEmptyFmt children).2.1 (firstNonEmptyFmt children).2.2)) := by
  unfold write_inline_block
  exact wibFold_writes children fontSizePt indentMm _ s

theorem c4_pagination_witness :
    ensure_space 10 ⟨30, 1, [], []⟩ =
        ({ y_pos := A4_HEIGHT_MM - MARGIN_TOP, page_count := 2, writes := [],
           draws := [] } : PdfState) ∧
      ensure_space 2 ⟨30, 1, [], []⟩ = (⟨30, 1, [], []⟩ : PdfState) ∧
      1 + 1 ≤ (write_inline_block ⟨30, 1, [], []⟩
        [⟨chars "a\nb\nc\nd", false, false, false, false⟩] 11 0 none).page_count := by
  refine ⟨?_, ?_, ?_⟩
  · exact c4_pagination.1 ⟨30, 1, [], []⟩ 10
      (by norm_num [MARGIN_BOTTOM])
  · exact c4_pagination.2.1 ⟨30, 1, [], []⟩ 2
      (by norm_num [MARGIN_BOTTOM])
  · have h1 : wrap_text (chars "a") 11 (USABLE_WIDTH - 0) false = [chars "a"] :=
      wrap_text_single_word _ _ _ _ (by decide) (by decide)
    have h2 : wrap_text (chars "b") 11 (USABLE_WIDTH - 0) false = [chars "b"] :=
      wrap_text_single_word _ _ _ _ (by decide) (by decide)
    have h3 : wrap_text (chars "c") 11 (USABLE_WIDTH - 0) false = [chars "c"] :=
      wrap_text_single_word _ _ _ _ (by decide) (by decide)
    have h4 : wrap_text (chars "d") 11 (USABLE_WIDTH - 0) false = [chars "d"] :=
      wrap_text_single_word _ _ _ _ (by decide) (by decide)
    have hsplit : chars "a\nb\nc\nd" =
        chars "a" ++ '\n' :: (chars "b" ++ '\n' :: (chars "c" ++ '\n' :: chars "d")) := by
      decide
    have e0 : wibFullText [⟨chars "a\nb\nc\nd", false, false, false, false⟩] none =
        chars "a\nb\nc\nd" := by decide
    have e1 : [(⟨chars "a\nb\nc\nd", false, false, false, false⟩ : InlineNode)].any
        InlineNode.code = false := by decide
    have hwrap : wrap_text
        (wibFullText [⟨chars "a\nb\nc\nd", false, false, false, false⟩] none) 11
        (USABLE_WIDTH - 0)
        ([(⟨chars "a\nb\nc\nd", false, false, false, false⟩ : InlineNode)].any
          InlineNode.code) =
        [chars "a", chars "b", chars "c", chars "d"] := by
      rw [e0, e1, hsplit, wrap_text_newline, wrap_text_newline, wrap_text_newline,
        h1, h2, h3, h4]
      rfl
    refine c4_pagination.2.2 ⟨30, 1, [], []⟩
      [⟨chars "a\nb\nc\nd", false, false, false, false⟩] 11 0 none ?_
    rw [hwrap]
    norm_num [line_height_mm, PT_PER_MM, MARGIN_BOTTOM]

theorem le_docx_col_count :
    ∀ (rows : List (List (List InlineNode))) (row : List (List InlineNode)),
      row ∈ rows → row.length ≤ docx_col_count rows := by
  intro rows
  induction rows with
  | nil => intro row h; simp at h
  | cons r rest ih =>
      intro row h
      simp only [docx_col_count, List.map_cons, List.foldr_cons]
      rcases List.mem_cons.mp h with rfl | h
      · exact Nat.le_max_left _ _
      · exact le_trans (ih row h) (Nat.le_max_right _ _)

theorem docxRowCells_length (rows : List (List (List InlineNode)))
    (row : List (List InlineNode)) (h : row ∈ rows) :
    (docxRowCells (docx_col_count rows) row).length = docx_col_count rows := by
  have hle := le_docx_col_count rows row h
  simp only [docxRowCells, List.length_append, List.length_map,
    List.length_replicate]
  omega

/-- C2: the uneven table `<table><tr><td>A</td></tr><tr><td>B</td><td>C</td>
</tr></table>` parses to two rows of one and two cells; the flow-document
builder pads every row of every table with empty cells up to the table's
maximum column count, and the page renderer turns any row — whatever its
length — into one pipe-joined text line; neither construction has an error
path. -/
theorem c2_table_padding :
    parse_html (chars "<table><tr><td>A</td></tr><tr><td>B</td><td>C</td></tr></table>") =
      [HtmlNode.Table
        [[[⟨chars "A", false, false, false, false⟩]],
         [[⟨chars "B", false, false, false, false⟩],
          [⟨chars "C", false, false, false, false⟩]]]] ∧
    (∀ (rows : List (List (List InlineNode))) (row : List (List InlineNode)),
      row ∈ rows →
      (docxRowCells (docx_col_count rows) row).length = docx_col_count rows) ∧
    pdf_row_text [[⟨chars "A", false, false, false, false⟩]] = chars "A" ∧
    pdf_row_text [[⟨chars "B", false, false, false, false⟩],
      [⟨chars "C", false, false, false, false⟩]] = chars "B  |  C" := by
  exact ⟨by decide, docxRowCells_length, by decide, by decide⟩

theorem c2_table_padding_witness :
    (docxRowCells
        (docx_col_count [[[⟨chars "A", false, false, false, false⟩]],
          [[⟨chars "B", false, false, false, false⟩],
           [⟨chars "C", false, false, false, false⟩]]])
        [[⟨chars "A", false, false, false, false⟩]]).length =
      docx_col_count [[[⟨chars "A", false, false, false, false⟩]],
        [[⟨chars "B", false, false, false, false⟩],
         [⟨chars "C", false, false, false, false⟩]]] :=
  c2_table_padding.2.1 _ _ (by decide)

/-- C1 (counterexample): the claim fails on the code — for the unknown-tag
markup `<foo>hello</foo>` the block parser's fallback arm skips past the
closing tag and drops the content, so the parsed model is empty and both
renderers produce exactly what they produce for empty markup; the text
"hello" is preserved nowhere. -/
theorem c1_unknown_tag_drops_text :
    parse_html (chars "<foo>hello</foo>") = [] ∧
    build_docx (chars "T") (chars "<foo>hello</foo>") =
      build_docx (chars "T") (chars "") ∧
    build_pdf (chars "T") (chars "<foo>hello</foo>") =
      build_pdf (chars "T") (chars "") := by
  have h : parse_html (chars "<foo>hello</foo>") = parse_html (chars "") := by decide
  refine ⟨by decide, ?_, ?_⟩
  · unfold build_docx; rw [h]
  · unfold build_pdf; rw [h]

/-- C1 (amended): an unknown block-level tag never aborts parsing — its
content is dropped (the model for `<foo>hello</foo>` is empty) and traversal
continues, so blocks after the unknown element are preserved. -/
theorem c1_unknown_tag_skip :
    parse_html (chars "<foo>hello</foo>") = [] ∧
    parse_html (chars "<foo>hello</foo><p>world</p>") =
      [HtmlNode.Paragraph [⟨chars "world", false, false, false, false⟩]] := by
  decide

/-- C8: the exported output of either builder is a pure deterministic
function of the pair (title, markup) — the embedded builders take no other
input (in particular no clock: the source's `Utc::now` calls live only in
the unrelated database commands), so identical inputs give identical
output structure. -/
theorem c8_deterministic :
    ∀ (t1 h1 t2 h2 : List Char), t1 = t2 → h1 = h2 →
      build_docx t1 h1 = build_docx t2 h2 ∧ build_pdf t1 h1 = build_pdf t2 h2 := by
  intro t1 h1 t2 h2 ht hh
  subst ht; subst hh
  exact ⟨rfl, rfl⟩

theorem c8_deterministic_witness :
    build_docx (chars "Report") (chars "<p>x</p>") =
        build_docx (chars "Report") (chars "<p>x</p>") ∧
      build_pdf (chars "Report") (chars "<p>x</p>") =
        build_pdf (chars "Report") (chars "<p>x</p>") :=
  c8_deterministic (chars "Report") (chars "<p>x</p>") (chars "Report")
    (chars "<p>x</p>") rfl rfl

/-- C9: stripping tag "p" removes any opening tag whose name merely begins
with `p` — the opening pass searches for the bare substring `<p` and deletes
through the next `>`, so `<pre>` (and `<pizza>`) openings are deleted — while
the closing pass removes only the exact string `</p>`, leaving `</pre>` in
place; this is what happens to a `<pre>` inside a blockquote, a list item or
a table cell, whose inner markup all goes through the same p-stripping. -/
theorem c9_strip_p_hits_pre :
    strip_tags_simple (chars "<pre>x</pre>") (chars "p") = chars "x</pre>" ∧
    strip_tags_simple (chars "<pizza>q</pizza>") (chars "p") = chars "q</pizza>" ∧
    strip_tags_simple (chars "</pre>") (chars "p") = chars "</pre>" ∧
    strip_tags_simple (chars "</p>") (chars "p") = [] ∧
    parse_html (chars "<blockquote><pre>x</pre></blockquote>") =
      [HtmlNode.Blockquote [⟨chars "x", false, false, false, false⟩]] ∧
    parse_list_items (chars "<li><pre>y</pre></li>") =
      [[⟨chars "y", false, false, false, false⟩]] ∧
    parse_table_row (chars "<td><pre>z</pre></td>") =
      [[⟨chars "z", false, false, false, false⟩]] := by
  decide

/-- C10: entity decoding applies its replacement table sequentially with
`&amp;` first, so the output of the ampersand pass feeds the later passes:
every double-escaped entity `&amp;name;` decodes all the way to the final
character rather than to the literal `&name;` string. -/
theorem c10_entity_double_decode :
    decode_html_entities (chars "&amp;lt;") = chars "<" ∧
    decode_html_entities (chars "&amp;gt;") = chars ">" ∧
    decode_html_entities (chars "&amp;quot;") = ['"'] ∧
    decode_html_entities (chars "&amp;#39;") = ['\''] ∧
    decode_html_entities (chars "&amp;apos;") = ['\''] ∧
    decode_html_entities (chars "&amp;nbsp;") = [' '] ∧
    decode_html_entities (chars "&amp;#x27;") = ['\''] ∧
    decode_html_entities (chars "&amp;#x2F;") = ['/'] ∧
    decode_html_entities (chars "&amp;mdash;") = ['—'] ∧
    decode_html_entities (chars "&amp;ndash;") = ['–'] ∧
    decode_html_entities (chars "&amp;hellip;") = ['…'] ∧
    decode_html_entities (chars "&amp;lsquo;") = ['‘'] ∧
    decode_html_entities (chars "&amp;rsquo;") = ['’'] ∧
    decode_html_entities (chars "&amp;ldquo;") = ['“'] ∧
    decode_html_entities (chars "&amp;rdquo;") = ['”'] := by
  decide
